import Mathlib

/-!
Shallow embedding of the PLONK front-end compiler (expression evaluator,
assembly compiler, constraint system, selector and permutation polynomial
builders) together with proofs of the specification claims.

Source files embedded: `plonk/curve.py`, `plonk/poly.py`,
`plonk/compiler/utils.py`, `plonk/compiler/assembly.py`,
`plonk/compiler/program.py`.
-/

/-- Order of the BN128 scalar field (`py_ecc.bn128.curve_order`),
the `field_modulus` of `Scalar` in `plonk/curve.py`. -/
def P : Nat := 21888242871839275222246405745257275088548364400416034343698204186575808495617

/-- A field element (`Scalar` in `plonk/curve.py`): an integer reduced modulo `P`. -/
abbrev Scalar := ZMod P

/-- `Scalar.root_of_unity` (`plonk/curve.py` lines 28-40):
`Scalar(5) ** ((field_modulus - 1) // group_order)`. -/
def Scalar.root_of_unity (group_order : Nat) : Scalar :=
  (5 : Scalar) ^ ((P - 1) / group_order)

/-- One iteration of the `while` loop of `Scalar.roots_of_unity`:
`o.append(o[-1] * o[1])`.  The list is always nonempty at the call sites,
so indexing is modelled with `getD`. -/
def rouStep (o : List Scalar) : List Scalar :=
  o ++ [o.getD (o.length - 1) 0 * o.getD 1 0]

/-- The `while len(o) < group_order` loop of `Scalar.roots_of_unity`,
with explicit fuel (the loop appends one element per iteration, so
`group_order` units of fuel always suffice). -/
def rouLoop (group_order : Nat) : Nat → List Scalar → List Scalar
  | 0, o => o
  | fuel + 1, o => if o.length < group_order then rouLoop group_order fuel (rouStep o) else o

/-- `Scalar.roots_of_unity` (`plonk/curve.py` lines 42-56): starts from
`o = [Scalar(1), root_of_unity(group_order)]` and appends `o[-1] * o[1]`
while `len(o) < group_order`. -/
def Scalar.roots_of_unity (group_order : Nat) : List Scalar :=
  rouLoop group_order group_order [1, Scalar.root_of_unity group_order]

/-- Grid column (`Column` in `plonk/compiler/utils.py`). -/
inductive Column where
  | LEFT
  | RIGHT
  | OUTPUT
deriving DecidableEq, Repr

/-- `Column.value`: `LEFT = 1`, `RIGHT = 2`, `OUTPUT = 3`. -/
def Column.value : Column → Nat
  | .LEFT => 1
  | .RIGHT => 2
  | .OUTPUT => 3

/-- `Column.variants()`: the three columns in order. -/
def Column.variants : List Column := [Column.LEFT, Column.RIGHT, Column.OUTPUT]

/-- A position in the 3-column grid (`Cell` in `plonk/compiler/utils.py`). -/
structure Cell where
  column : Column
  row : Nat
deriving DecidableEq, Repr

/-- The sort key of a cell: `(self.row, self.column.value)` compared
lexicographically, as Python compares tuples.  This is the order used by
`sorted(uses)` in `make_s_polynomials`. -/
def cellLe (a b : Cell) : Bool :=
  a.row < b.row || (a.row == b.row && a.column.value ≤ b.column.value)

/-- `Cell.label` (`plonk/compiler/utils.py` lines 44-55):
`Scalar.roots_of_unity(group_order)[self.row] * self.column.value`.
The source asserts `self.row < group_order`; all call sites satisfy it,
and out-of-range indexing is modelled with `getD`. -/
def Cell.label (c : Cell) (group_order : Nat) : Scalar :=
  (Scalar.roots_of_unity group_order).getD c.row 0 * (c.column.value : Scalar)

/-- Python's `str.split(sep)` for a single-character separator, on the
character list: splits at every occurrence of `sep`, keeping empty pieces
(`"".split(sep) == [""]`, `"a**b".split("*") == ["a","","b"]`). -/
def pySplit (sep : Char) : List Char → List (List Char)
  | [] => [[]]
  | c :: rest =>
    if c = sep then [] :: pySplit sep rest
    else
      match pySplit sep rest with
      | [] => [[c]]
      | h :: r => (c :: h) :: r

/-- Python's `str.split(sep)` on strings. -/
def pySplitStr (s : String) (sep : Char) : List String :=
  (pySplit sep s.data).map String.mk

/-- Lexicographic comparison of character lists by code point, as Python
compares strings. -/
def charListLe : List Char → List Char → Bool
  | [], _ => true
  | _ :: _, [] => false
  | a :: as, b :: bs => if a < b then true else if a = b then charListLe as bs else false

/-- Python's `<=` on strings: lexicographic by code point. -/
def pyStrLe (a b : String) : Bool := charListLe a.data b.data

/-- Insertion step of the sort used to model Python's `sorted`. -/
def orderedInsert {α : Type} (le : α → α → Bool) (a : α) : List α → List α
  | [] => [a]
  | b :: l => if le a b then a :: b :: l else b :: orderedInsert le a l

/-- Sorting by a total order, modelling Python's `sorted`.  (`sorted` is a
stable sort; it is applied below only to lists whose elements have pairwise
distinct or identical sort keys, where every correct sort agrees.) -/
def pySorted {α : Type} (le : α → α → Bool) : List α → List α
  | [] => []
  | a :: l => orderedInsert le a (pySorted le l)

/-- `get_product_key` (`plonk/compiler/utils.py` lines 58-83): split both
keys on `*`, drop empty pieces, sort the combined pieces and rejoin with
`*`. -/
def get_product_key (key1 key2 : String) : String :=
  let key1_elements := (pySplitStr key1 '*').filter (fun e => e ≠ "")
  let key2_elements := (pySplitStr key2 '*').filter (fun e => e ≠ "")
  let combined_elements := pySorted pyStrLe (key1_elements ++ key2_elements)
  String.intercalate "*" combined_elements

/-- `is_valid_variable_name` (`plonk/compiler/utils.py` lines 86-101):
nonempty, alphanumeric, not starting with a digit.  (The Python
`str.isalnum` is unicode-aware; the equation language is ASCII-only, so
ASCII alphanumerity is the faithful reading.) -/
def is_valid_variable_name (name : String) : Bool :=
  name.length > 0 && name.data.all Char.isAlphanum && !(name.data.getD 0 '0').isDigit

/-- A Python `dict[str, int]`: an insertion-ordered association list with
pairwise distinct keys.  (`$public: True` is stored as the integer `1`.) -/
abbrev CoeffMap := List (String × Int)

/-- Python `d[k] = v`: overwrite in place if the key is present, else
append the new binding. -/
def dictInsert (m : CoeffMap) (k : String) (v : Int) : CoeffMap :=
  match m with
  | [] => [(k, v)]
  | p :: rest => if p.1 = k then (p.1, v) :: rest else p :: dictInsert rest k v

/-- Python `d.get(k, default)`. -/
def dictGet (m : CoeffMap) (k : String) (default : Int) : Int :=
  match m with
  | [] => default
  | p :: rest => if p.1 = k then p.2 else dictGet rest k default

/-- Python `k in d`. -/
def dictHasKey (m : CoeffMap) (k : String) : Bool :=
  m.any (fun p => p.1 = k)

/-- Python `L | R` on dicts (mapping union): keys of `L` in order, then the
keys of `R` not in `L` appended; on a key collision the value from `R`
wins. -/
def dictUnion (L R : CoeffMap) : CoeffMap :=
  R.foldl (fun acc p => dictInsert acc p.1 p.2) L

/-- Python `str.isnumeric()` restricted to ASCII digit strings (the only
numeric tokens the equation language produces). -/
def pyIsNumeric (s : String) : Bool :=
  s.length > 0 && s.data.all Char.isDigit

/-- Python `int(s)` on a digit string. -/
def strToNat (s : String) : Nat :=
  s.data.foldl (fun n c => n * 10 + (c.toNat - '0'.toNat)) 0

/-- Fuel bound for `evaluate`: every recursive call of the Python function
strictly decreases `1 + len(exprs) + sum(len(tok) for tok in exprs)`. -/
def evalMeasure (exprs : List String) : Nat :=
  1 + exprs.length + (exprs.map String.length).sum

/-- `evaluate` (`plonk/compiler/assembly.py` lines 85-147) with explicit
fuel: split at the first `+`, else the first `-` (right side negated), else
the first `*` (the flag propagated to both factors), else interpret the
single remaining token.  Failures (`raise`) are modelled with `Except`. -/
def evalFuel : Nat → List String → Bool → Except String CoeffMap
  | 0, _, _ => .error "out of fuel"
  | fuel + 1, exprs, first_is_negative =>
    if "+" ∈ exprs then do
      let L ← evalFuel fuel (exprs.take (exprs.indexOf "+")) first_is_negative
      let R ← evalFuel fuel (exprs.drop (exprs.indexOf "+" + 1)) false
      return dictUnion L R
    else if "-" ∈ exprs then do
      let L ← evalFuel fuel (exprs.take (exprs.indexOf "-")) first_is_negative
      let R ← evalFuel fuel (exprs.drop (exprs.indexOf "-" + 1)) true
      return dictUnion L R
    else if "*" ∈ exprs then do
      let L ← evalFuel fuel (exprs.take (exprs.indexOf "*")) first_is_negative
      let R ← evalFuel fuel (exprs.drop (exprs.indexOf "*" + 1)) first_is_negative
      return L.foldl (fun output p1 =>
        R.foldl (fun output p2 =>
          dictInsert output (get_product_key p1.1 p2.1) (p1.2 * p2.2)) output) []
    else if exprs.length > 1 then
      .error "No operators found; expected sub-expression to be a unit"
    else
      match exprs with
      | [] => .error "list index out of range"
      | t :: _ =>
        match t.data with
        | [] => .error "string index out of range"
        | c :: cs =>
          if c = '-' then
            evalFuel fuel [String.mk cs] (!first_is_negative)
          else if pyIsNumeric t then
            .ok [("", (strToNat t : Int) * (if first_is_negative then -1 else 1))]
          else if is_valid_variable_name t then
            .ok [(t, if first_is_negative then -1 else 1)]
          else
            .error ("Unknown token: " ++ t)

/-- `evaluate(exprs, first_is_negative)`: the fuel `evalMeasure exprs`
always suffices (each recursive call strictly decreases the measure), so
this equals the Python recursion. -/
def evaluate (exprs : List String) (first_is_negative : Bool) : Except String CoeffMap :=
  evalFuel (evalMeasure exprs) exprs first_is_negative

deriving instance DecidableEq for Except

section Sanity
example : evaluate ["a", "+", "b"] false = .ok [("a", 1), ("b", 1)] := by decide
example : evaluate ["a", "-", "b"] false = .ok [("a", 1), ("b", -1)] := by decide
example : evaluate ["a", "*", "b"] false = .ok [("a*b", 1)] := by decide
example : evaluate ["5", "-", "a", "*", "b"] false = .ok [("", 5), ("a*b", 1)] := by decide
example : evaluate ["a", "+", "a"] false = .ok [("a", 1)] := by decide
example : evaluate ["-x"] false = .ok [("x", -1)] := by decide
end Sanity

section Sanity2
example : get_product_key "a" "b" = "a*b" := by decide
example : get_product_key "b" "a" = "a*b" := by decide
example : get_product_key "" "a" = "a" := by decide
example : is_valid_variable_name "a1" = true := by decide
example : is_valid_variable_name "1a" = false := by decide
example : (Scalar.roots_of_unity 1).length = 2 := by decide
end Sanity2

/-- `GateWires` (`plonk/compiler/assembly.py` lines 10-31): the optional
variable names on the left, right and output wires of one gate. -/
structure GateWires where
  L : Option String
  R : Option String
  O : Option String
deriving DecidableEq, Repr

/-- `GateWires.as_list()`: `[self.L, self.R, self.O]`. -/
def GateWires.as_list (w : GateWires) : List (Option String) := [w.L, w.R, w.O]

/-- `Gate` (`plonk/compiler/assembly.py` lines 34-42): the five selector
field elements of one row. -/
structure Gate where
  L : Scalar
  R : Scalar
  M : Scalar
  O : Scalar
  C : Scalar
deriving DecidableEq, Repr

/-- `AssemblyEqn` (`plonk/compiler/assembly.py` lines 45-58): wires plus
coefficient map.  The Python coefficient dict holds string keys only, so
`coeffs.get(self.wires.L, 0)` with an absent wire (`None`) always returns
the default. -/
structure AssemblyEqn where
  wires : GateWires
  coeffs : CoeffMap
deriving DecidableEq, Repr

/-- Python `self.coeffs.get(w, 0)` where `w` is an optional wire name: a
`None` key is never present in the dict, so it yields the default `0`. -/
def getWire (m : CoeffMap) (w : Option String) : Int :=
  match w with
  | none => 0
  | some k => dictGet m k 0

/-- `AssemblyEqn.L`: `Scalar(-self.coeffs.get(self.wires.L, 0))`. -/
def AssemblyEqn.L (e : AssemblyEqn) : Scalar := ((-(getWire e.coeffs e.wires.L) : Int) : Scalar)

/-- `AssemblyEqn.R`: `Scalar(-self.coeffs.get(self.wires.R, 0))` unless
`wires.R == wires.L`, in which case `Scalar(0)`. -/
def AssemblyEqn.R (e : AssemblyEqn) : Scalar :=
  if e.wires.R ≠ e.wires.L then ((-(getWire e.coeffs e.wires.R) : Int) : Scalar) else 0

/-- `AssemblyEqn.C`: `Scalar(-self.coeffs.get("", 0))`. -/
def AssemblyEqn.C (e : AssemblyEqn) : Scalar := ((-(dictGet e.coeffs "" 0) : Int) : Scalar)

/-- `AssemblyEqn.O`: `Scalar(self.coeffs.get("$output_coeff", 1))`, not
negated. -/
def AssemblyEqn.O (e : AssemblyEqn) : Scalar := ((dictGet e.coeffs "$output_coeff" 1 : Int) : Scalar)

/-- `AssemblyEqn.M` (`plonk/compiler/assembly.py` lines 74-79):
`Scalar(-self.coeffs.get(get_product_key(wires.L, wires.R), 0))` when
`None not in self.wires.as_list()`, else `Scalar(0)`.  (Note the guard
checks all three wires, the output wire included.)  In the guarded branch
both `wires.L` and `wires.R` are present, and `get_product_key` maps a
Python `None` argument to `""`. -/
def AssemblyEqn.M (e : AssemblyEqn) : Scalar :=
  if none ∉ e.wires.as_list then
    ((-(dictGet e.coeffs (get_product_key (e.wires.L.getD "") (e.wires.R.getD "")) 0) : Int) : Scalar)
  else 0

/-- `AssemblyEqn.gate()`: the five selectors for this row. -/
def AssemblyEqn.gate (e : AssemblyEqn) : Gate := ⟨e.L, e.R, e.M, e.O, e.C⟩

/-- Python `s.rstrip("\n")` on the character list. -/
def rstripNl (l : List Char) : List Char :=
  (l.reverse.dropWhile (fun c => c == '\n')).reverse

/-- The tokenization of `eq_to_assembly`:
`eq.rstrip("\n").split(" ")`. -/
def pyTokens (eq : String) : List String :=
  (pySplit ' ' (rstripNl eq.data)).map String.mk

/-- Python `t.lstrip("-")`. -/
def lstripMinus (t : String) : String :=
  String.mk (t.data.dropWhile (fun c => c == '-'))

/-- The variable-collection loop of `eq_to_assembly` (lines 205-215): scan
`tokens[2:]`, strip a leading run of `-`, and append each valid variable
name not yet seen, in encounter order. -/
def gatherVariables (rest : List String) : List String :=
  rest.foldl (fun vars t =>
    let var := lstripMinus t
    if is_valid_variable_name var ∧ var ∉ vars then vars ++ [var]
    else vars) []

/-- `eq_to_assembly` (`plonk/compiler/assembly.py` lines 150-260): compile
one equation string into an `AssemblyEqn`; every Python `raise` becomes an
`Except.error` (including index errors on degenerate inputs).  The
`$public` flag (Python `True`) is stored as the integer `1`. -/
def eq_to_assembly (eq : String) : Except String AssemblyEqn :=
  match pyTokens eq with
  | t0 :: t1 :: rest =>
    if t1 = "<==" ∨ t1 = "===" then do
      let coeffs0 ← evaluate rest false
      match t0.data with
      | [] => .error "string index out of range"
      | c :: cs =>
        let out := if c = '-' then String.mk cs else t0
        let coeffs := if c = '-' then dictInsert coeffs0 "$output_coeff" (-1) else coeffs0
        if ¬ is_valid_variable_name out then
          .error ("Invalid out variable name: " ++ out)
        else
          let vars := gatherVariables rest
          let allowed0 := vars ++ ["", "$output_coeff"]
          let vp : Except String (List String × List String) :=
            if vars.length = 0 then
              .ok (vars, allowed0)
            else if vars.length = 1 then
              let v := vars.getD 0 ""
              .ok (vars ++ [v], allowed0 ++ [get_product_key v v])
            else if vars.length = 2 then
              .ok (vars, allowed0 ++ [get_product_key (vars.getD 0 "") (vars.getD 1 "")])
            else
              .error "Only up to 2 variables are allowed"
          match vp with
          | .error msg => .error msg
          | .ok (vars, allowed_coeffs) =>
            if coeffs.all (fun p => p.1 ∈ allowed_coeffs) then
              let wires := vars.map some ++ List.replicate (2 - vars.length) none ++ [some out]
              .ok ⟨⟨wires.getD 0 none, wires.getD 1 none, wires.getD 2 none⟩, coeffs⟩
            else
              .error "Invalid multiplication coefficient"
    else if t1 = "public" then
      .ok ⟨⟨some t0, none, none⟩,
           dictInsert (dictInsert (dictInsert [] t0 (-1)) "$output_coeff" 0) "$public" 1⟩
    else
      .error ("Unsupported operation: " ++ t1)
  | _ => .error "list index out of range"

section Sanity3
example : eq_to_assembly "a === 9" =
    .ok ⟨⟨none, none, some "a"⟩, [("", 9)]⟩ := by decide
example : eq_to_assembly "b <== a * c" =
    .ok ⟨⟨some "a", some "c", some "b"⟩, [("a*c", 1)]⟩ := by decide
example : eq_to_assembly "e <== a + b * c * d" matches .error _ := by decide
example : eq_to_assembly "x public" =
    .ok ⟨⟨some "x", none, none⟩, [("x", -1), ("$output_coeff", 0), ("$public", 1)]⟩ := by decide
example : (eq_to_assembly "c <== a * b").map AssemblyEqn.gate =
    .ok ⟨0, 0, -1, 1, 0⟩ := by decide
end Sanity3

/-- Polynomial basis (`Basis` in `plonk/poly.py`). -/
inductive Plonk.Basis where
  | LAGRANGE
  | MONOMIAL
deriving DecidableEq, Repr

/-- `Polynomial` (`plonk/poly.py`): a list of field values tagged with its
basis. -/
structure Plonk.Polynomial where
  values : List Scalar
  basis : Plonk.Basis
deriving DecidableEq, Repr

/-- `Program` (`plonk/compiler/program.py` lines 54-102): an ordered list
of compiled constraints plus the group order. -/
structure Program where
  constraints : List AssemblyEqn
  group_order : Nat
deriving DecidableEq, Repr

/-- `Program.__init__` (`plonk/compiler/program.py` lines 87-102): raise
`"Group order too small"` when `len(constraints) > group_order`, otherwise
compile every equation in order (the first compile error aborting the
whole program). -/
def compileAll : List String → Except String (List AssemblyEqn)
  | [] => .ok []
  | eq :: rest =>
    match eq_to_assembly eq with
    | .error msg => .error msg
    | .ok a =>
      match compileAll rest with
      | .error msg => .error msg
      | .ok l => .ok (a :: l)

/-- `Program::new(constraints, group_order)` (the constructor
`Program.__init__`). -/
def Program.new (constraints : List String) (group_order : Nat) : Except String Program :=
  if constraints.length > group_order then
    .error "Group order too small"
  else
    match compileAll constraints with
    | .error msg => .error msg
    | .ok assembly => .ok ⟨assembly, group_order⟩

/-- Intermediate state of `make_gate_polynomials`: the five coefficient
lists `L, R, M, O, C`. -/
structure GateLists where
  L : List Scalar
  R : List Scalar
  M : List Scalar
  O : List Scalar
  C : List Scalar

/-- `Program.make_gate_polynomials` (`plonk/compiler/program.py` lines
192-226): start from five all-zero lists of length `group_order`, and for
each constraint row `i` overwrite position `i` with that row's gate
selectors; wrap the results as Lagrange-basis polynomials. -/
def Program.make_gate_lists (p : Program) : GateLists :=
  let z := List.replicate p.group_order (0 : Scalar)
  p.constraints.enum.foldl (fun acc ic =>
    let gate := ic.2.gate
    ⟨acc.L.set ic.1 gate.L, acc.R.set ic.1 gate.R, acc.M.set ic.1 gate.M,
     acc.O.set ic.1 gate.O, acc.C.set ic.1 gate.C⟩)
    ⟨z, z, z, z, z⟩

/-- The five Lagrange-basis gate polynomials `(L, R, M, O, C)`. -/
def Program.make_gate_polynomials (p : Program) :
    Plonk.Polynomial × Plonk.Polynomial × Plonk.Polynomial × Plonk.Polynomial × Plonk.Polynomial :=
  let g := p.make_gate_lists
  (⟨g.L, .LAGRANGE⟩, ⟨g.R, .LAGRANGE⟩, ⟨g.M, .LAGRANGE⟩, ⟨g.O, .LAGRANGE⟩, ⟨g.C, .LAGRANGE⟩)

/-- The occupied-cell dictionary built by `make_s_polynomials`: keys are
occupants (`None` for the unused group), values the sets of cells, both in
insertion order.  Cell sets are modelled as duplicate-free lists. -/
abbrev Uses := List (Option String × List Cell)

/-- Python `set.add`: append the cell if it is not already present. -/
def setAdd (s : List Cell) (c : Cell) : List Cell :=
  if c ∈ s then s else s ++ [c]

/-- One step of the cell-collection loops of `make_s_polynomials`:
`variable_uses.setdefault(value, set()).add(Cell(column, row))` -- update
the unique entry for the key in place, appending a fresh entry for an
unseen key. -/
def usesAdd : Uses → Option String → Cell → Uses
  | [], k, c => [(k, [c])]
  | (k', s) :: rest, k, c =>
    if k' = k then (k', setAdd s c) :: rest else (k', s) :: usesAdd rest k c

/-- The cell-collection phase of `make_s_polynomials`
(`plonk/compiler/program.py` lines 119-151): start from `{None: set()}`,
record the cell of every present wire of every constraint row, then mark
all cells of the rows from `len(constraints)` to `group_order` as unused.
(An absent wire `None` also lands in the `None` group.) -/
def Program.variable_uses (p : Program) : Uses :=
  let d0 : Uses := [(none, [])]
  let d1 := p.constraints.enum.foldl (fun d rc =>
    (Column.variants.zip rc.2.wires.as_list).foldl (fun d cv =>
      usesAdd d cv.2 ⟨cv.1, rc.1⟩) d) d0
  (List.range' p.constraints.length (p.group_order - p.constraints.length)).foldl (fun d row =>
    Column.variants.foldl (fun d col => usesAdd d none ⟨col, row⟩) d) d1

/-- The mutable `S_values` table: one list of field elements per column. -/
abbrev SValues := Column → List Scalar

/-- `S_values[next_column][next_row] = value`. -/
def writeS (S : SValues) (col : Column) (row : Nat) (v : Scalar) : SValues :=
  fun c => if c = col then (S col).set row v else S c

/-- One iteration of the rotation loop of `make_s_polynomials`
(`plonk/compiler/program.py` lines 176-184): store the label of cell `i`
at the grid position of cell `(i + 1) % len` of the sorted use list. -/
def pgBody (group_order : Nat) (sorted_uses : List Cell) (S : SValues) (i : Nat) : SValues :=
  let next := sorted_uses.getD ((i + 1) % sorted_uses.length) ⟨Column.LEFT, 0⟩
  writeS S next.column next.row ((sorted_uses.getD i ⟨Column.LEFT, 0⟩).label group_order)

/-- The rotation loop of `make_s_polynomials` for one variable group:
`for i, cell in enumerate(sorted_uses)`, one `pgBody` step per index. -/
def processGroup (group_order : Nat) (S : SValues) (sorted_uses : List Cell) : SValues :=
  (List.range sorted_uses.length).foldl (pgBody group_order sorted_uses) S

/-- The accumulated `S_values` tables of `make_s_polynomials`: fold the
rotation loop over the groups of `variable_uses`, sorting each group by
`(row, column)` first, starting from all-zero tables. -/
def Program.make_s_values (p : Program) : SValues :=
  p.variable_uses.foldl (fun S kv => processGroup p.group_order S (pySorted cellLe kv.2))
    (fun _ => List.replicate p.group_order (0 : Scalar))

/-- `Program.make_s_polynomials` (`plonk/compiler/program.py` lines
119-190): the three permutation polynomials, one per column, in Lagrange
basis. -/
def Program.make_s_polynomials (p : Program) : Column → Plonk.Polynomial :=
  fun col => ⟨p.make_s_values col, .LAGRANGE⟩

/-- `CommonPreprocessedInput` (`plonk/compiler/program.py` lines 8-51). -/
structure CommonPreprocessedInput where
  group_order : Nat
  QM : Plonk.Polynomial
  QL : Plonk.Polynomial
  QR : Plonk.Polynomial
  QO : Plonk.Polynomial
  QC : Plonk.Polynomial
  S1 : Plonk.Polynomial
  S2 : Plonk.Polynomial
  S3 : Plonk.Polynomial
deriving DecidableEq, Repr

/-- `Program.common_preprocessed_input` (`plonk/compiler/program.py` lines
104-117). -/
def Program.common_preprocessed_input (p : Program) : CommonPreprocessedInput :=
  let g := p.make_gate_polynomials
  let S := p.make_s_polynomials
  ⟨p.group_order, g.2.2.1, g.1, g.2.1, g.2.2.2.1, g.2.2.2.2,
   S Column.LEFT, S Column.RIGHT, S Column.OUTPUT⟩

/-- The sorted occupant groups of `make_s_polynomials`, in dictionary
order: one sorted cell list per occupant (the `None` group included). -/
def Program.s_groups (p : Program) : List (List Cell) :=
  p.variable_uses.map (fun kv => pySorted cellLe kv.2)

/-- Reading one grid position out of the `S_values` tables. -/
def lookupS (S : SValues) (c : Cell) : Scalar :=
  (S c.column).getD c.row 0

section Sanity4
example : (Program.new ["c <== a * b"] 8).isOk = true := by decide
example : (Program.new ["c <== a * b", "d === c"] 1).isOk = false := by decide
example :
    (Program.new ["c <== a * b"] 2).toOption.map Program.s_groups =
      some [[⟨Column.LEFT, 1⟩, ⟨Column.RIGHT, 1⟩, ⟨Column.OUTPUT, 1⟩],
            [⟨Column.LEFT, 0⟩], [⟨Column.RIGHT, 0⟩], [⟨Column.OUTPUT, 0⟩]] := by decide
end Sanity4

/-! ### Helper lemmas -/

theorem getD_map_range {α : Type} (f : Nat → α) {m i : Nat} (d : α) (h : i < m) :
    ((List.range m).map f).getD i d = f i := by
  have hlen : i < ((List.range m).map f).length := by simpa using h
  rw [List.getD_eq_getElem _ _ hlen]
  simp

theorem rouStep_map (ω : Scalar) (m : Nat) (h2 : 2 ≤ m) :
    rouStep ((List.range m).map (fun i => ω ^ i)) = (List.range (m + 1)).map (fun i => ω ^ i) := by
  unfold rouStep
  have hlen : ((List.range m).map (fun i => ω ^ i)).length = m := by simp
  rw [hlen, getD_map_range _ _ (by omega), getD_map_range _ _ (by omega),
    List.range_succ, List.map_append]
  have hpow : ω ^ (m - 1) * ω = ω ^ m := by
    rw [← pow_succ]
    congr 1
    omega
  simp [hpow]

theorem rouLoop_maps (ω : Scalar) (n : Nat) :
    ∀ (fuel m : Nat), 2 ≤ m → n ≤ m + fuel →
    rouLoop n fuel ((List.range m).map (fun i => ω ^ i)) =
      (List.range (max m n)).map (fun i => ω ^ i) := by
  intro fuel
  induction fuel with
  | zero =>
    intro m h2 hn
    rw [rouLoop, Nat.max_eq_left (by omega)]
  | succ fuel ih =>
    intro m h2 hn
    rw [rouLoop]
    have hlen : ((List.range m).map (fun i => ω ^ i)).length = m := by simp
    rw [hlen]
    by_cases hc : m < n
    · rw [if_pos hc, rouStep_map ω m h2, ih (m + 1) (by omega) (by omega),
        Nat.max_eq_right (by omega), Nat.max_eq_right (by omega)]
    · rw [if_neg hc, Nat.max_eq_left (by omega)]

theorem roots_of_unity_eq_map (n : Nat) (hn : 2 ≤ n) :
    Scalar.roots_of_unity n = (List.range n).map (fun i => Scalar.root_of_unity n ^ i) := by
  unfold Scalar.roots_of_unity
  have hbase : [(1 : Scalar), Scalar.root_of_unity n] =
      (List.range 2).map (fun i => Scalar.root_of_unity n ^ i) := by
    have : List.range 2 = [0, 1] := rfl
    simp [this]
  rw [hbase, rouLoop_maps _ n n 2 (by omega) (by omega), Nat.max_eq_right (by omega)]

/-! ### Claim theorems -/

/-- Claim C7 (amended): for every group order `n ≥ 2`, `roots_of_unity n`
is the list `[1, ω, ω², …, ω^(n-1)]` with `ω = root_of_unity n`: it has
length exactly `n`, entry `0` is `1`, and entry `i` is `ω ^ i`.  (The
claim as stated, for every `n ≥ 1`, fails at `n = 1`: the loop starts from
the two-element list `[1, ω]` and never shrinks it, so the result has
length `2`, not `1` — see the counterexample.) -/
theorem claim_C7_roots_of_unity (n : Nat) (hn : 2 ≤ n) :
    (Scalar.roots_of_unity n).length = n ∧
    (Scalar.roots_of_unity n).getD 0 0 = 1 ∧
    ∀ i < n, (Scalar.roots_of_unity n).getD i 0 = Scalar.root_of_unity n ^ i := by
  have key := roots_of_unity_eq_map n hn
  refine ⟨by simp [key], ?_, ?_⟩
  · rw [key, getD_map_range _ _ (by omega), pow_zero]
  · intro i hi
    rw [key, getD_map_range _ _ hi]

/-- Witness for claim C7: the amended statement applied at `n = 2`. -/
theorem claim_C7_witness :
    2 ≤ 2 ∧ ((Scalar.roots_of_unity 2).length = 2 ∧
      (Scalar.roots_of_unity 2).getD 0 0 = 1 ∧
      ∀ i < 2, (Scalar.roots_of_unity 2).getD i 0 = Scalar.root_of_unity 2 ^ i) :=
  ⟨by decide, claim_C7_roots_of_unity 2 (by decide)⟩

/-- Counterexample for claim C7 as stated: at the valid group order
`n = 1` (which divides `p - 1`), the returned list has length `2`, not
`1`. -/
theorem claim_C7_counterexample : (Scalar.roots_of_unity 1).length ≠ 1 := by decide

/-- Claim C2 (code bug): evaluating `["5", "-", "a", "*", "b"]` with the
negation flag false yields the coefficient `+1` for the product key
`a*b`, not the `-1` required by the claim, by the spec (§4.1/§8) and by
the compiler's own docstring example
(`d <== a * c - 45 * a + 987  ↦  {'a*c': 1, 'a': -45, '': 987}`): the
`*` branch propagates the inherited negation flag to BOTH factors, so the
two `-1` factor coefficients cancel. -/
theorem claim_C2_subtraction_of_product :
    evaluate ["5", "-", "a", "*", "b"] false = .ok [("", 5), ("a*b", 1)] ∧
    eq_to_assembly "d <== a * c - 45 * a + 987" =
      .ok ⟨⟨some "a", some "c", some "d"⟩, [("a*c", 1), ("a", 45), ("", 987)]⟩ := by
  constructor
  · decide
  · decide

/-- Claim C3: compiling `"c <== a * b"` into a one-equation program and
extracting the gate of row 0 yields exactly
`L = 0, R = 0, M = -1, O = 1, C = 0`. -/
theorem claim_C3_round_trip :
    (Program.new ["c <== a * b"] 8).toOption.map
        (fun p => p.constraints.map AssemblyEqn.gate) =
      some [⟨0, 0, -1, 1, 0⟩] := by
  decide

/-! Dictionary-union lemmas for claim C4. -/

theorem dictGet_insert_self (m : CoeffMap) (k : String) (v : Int) (d : Int) :
    dictGet (dictInsert m k v) k d = v := by
  induction m with
  | nil => simp [dictInsert, dictGet]
  | cons p rest ih =>
    by_cases hp : p.1 = k
    · simp [dictInsert, dictGet, hp]
    · simp [dictInsert, dictGet, hp, ih]

theorem dictGet_insert_ne (m : CoeffMap) {j k : String} (v : Int) (d : Int) (hjk : j ≠ k) :
    dictGet (dictInsert m j v) k d = dictGet m k d := by
  induction m with
  | nil => simp [dictInsert, dictGet, hjk]
  | cons p rest ih =>
    by_cases hp : p.1 = j
    · simp [dictInsert, dictGet, hp, hjk]
    · simp [dictInsert, dictGet, hp, ih]

theorem dictUnion_get_of_not_mem_right (L R : CoeffMap) (k : String) (d : Int)
    (h : dictHasKey R k = false) :
    dictGet (dictUnion L R) k d = dictGet L k d := by
  induction R generalizing L with
  | nil => rfl
  | cons p R ih =>
    simp only [dictHasKey, List.any_cons, Bool.or_eq_false_iff, decide_eq_false_iff_not] at h
    have step : dictUnion L (p :: R) = dictUnion (dictInsert L p.1 p.2) R := rfl
    rw [step, ih _ (by simpa [dictHasKey] using h.2), dictGet_insert_ne _ _ _ h.1]

/-- Claim C4: when a monomial key is present in both coefficient maps, the
evaluator's dict merge (`L | R`) keeps the right-hand side's value rather
than summing, and in particular `evaluate ["a", "+", "a"] false` returns
the map `{a: 1}`, not `{a: 2}`. -/
theorem claim_C4_merge_overwrites (L R : CoeffMap) (k : String) (d : Int)
    (hnodup : (R.map Prod.fst).Nodup)
    (hL : dictHasKey L k = true) (hR : dictHasKey R k = true) :
    dictGet (dictUnion L R) k d = dictGet R k d ∧
    evaluate ["a", "+", "a"] false = .ok [("a", 1)] := by
  refine ⟨?_, by decide⟩
  clear hL
  induction R generalizing L with
  | nil => simp [dictHasKey] at hR
  | cons p R ih =>
    have step : dictUnion L (p :: R) = dictUnion (dictInsert L p.1 p.2) R := rfl
    simp only [List.map_cons, List.nodup_cons] at hnodup
    by_cases hp : p.1 = k
    · have hRk : dictHasKey R k = false := by
        rw [Bool.eq_false_iff]
        intro h
        simp only [dictHasKey, List.any_eq_true, decide_eq_true_eq] at h
        obtain ⟨q, hq, hqk⟩ := h
        exact hnodup.1 (by rw [hp, ← hqk]; exact List.mem_map_of_mem Prod.fst hq)
      rw [step, dictUnion_get_of_not_mem_right _ _ _ _ hRk, hp, dictGet_insert_self]
      simp [dictGet, hp]
    · have hRk : dictHasKey R k = true := by
        simp only [dictHasKey, List.any_cons, Bool.or_eq_true, decide_eq_true_eq] at hR
        rcases hR with h | h
        · exact absurd h hp
        · simpa [dictHasKey] using h
      rw [step, ih _ hnodup.2 hRk]
      simp [dictGet, hp]

/-- Witness for claim C4: the merge lemma applied at the concrete maps
`L = R = {a: 1}` and key `a` (arising from `"a + a"`). -/
theorem claim_C4_witness :
    (([("a", (1 : Int))].map Prod.fst).Nodup ∧
      dictHasKey [("a", 1)] "a" = true ∧ dictHasKey [("a", 1)] "a" = true) ∧
    (dictGet (dictUnion [("a", 1)] [("a", 1)]) "a" 0 = dictGet [("a", 1)] "a" 0 ∧
      evaluate ["a", "+", "a"] false = .ok [("a", 1)]) :=
  ⟨⟨by decide, by decide, by decide⟩,
    claim_C4_merge_overwrites [("a", 1)] [("a", 1)] "a" 0 (by decide) (by decide) (by decide)⟩

/-- Claim C8 (amended): the multiplication selector `M` is
`-coeffs.get(productKey(L, R), 0)` when all three wires `L`, `R` and `O`
are present, and `0` otherwise — the guard in the source is
`None not in self.wires.as_list()`, so the absence of the output wire `O`
also forces `M = 0`, contrary to the claim as stated (see the
counterexample). -/
theorem claim_C8_M_selector (e : AssemblyEqn) :
    e.M = if e.wires.L.isSome ∧ e.wires.R.isSome ∧ e.wires.O.isSome then
        ((-(dictGet e.coeffs (get_product_key (e.wires.L.getD "") (e.wires.R.getD "")) 0) : Int) : Scalar)
      else 0 := by
  unfold AssemblyEqn.M GateWires.as_list
  rcases e.wires with ⟨L, R, O⟩
  rcases L <;> rcases R <;> rcases O <;> simp

/-- Counterexample for claim C8 as stated: for the assembly equation with
wires `(a, b, None)` (both `L` and `R` present, `O` absent) and
coefficients `{a*b: 1}`, the code returns `M = 0`, not the claimed
`-coeffs.get(productKey(a, b), 0) = -1`: the presence of the output wire
does affect `M`. -/
theorem claim_C8_counterexample :
    AssemblyEqn.M ⟨⟨some "a", some "b", none⟩, [("a*b", 1)]⟩ ≠
      ((-(dictGet [("a*b", 1)] (get_product_key "a" "b") 0) : Int) : Scalar) := by
  decide

/-! Lemmas for claim C6. -/

theorem compileAll_isOk (eqs : List String)
    (h : ∀ e ∈ eqs, (eq_to_assembly e).isOk = true) :
    (compileAll eqs).isOk = true := by
  induction eqs with
  | nil => rfl
  | cons e rest ih =>
    have he := h e (by simp)
    cases hc : eq_to_assembly e with
    | error msg => rw [hc] at he; simp [Except.isOk, Except.toBool] at he
    | ok a =>
      have hrest := ih (fun e' he' => h e' (by simp [he']))
      cases hr : compileAll rest with
      | error msg => rw [hr] at hrest; simp [Except.isOk, Except.toBool] at hrest
      | ok l => simp [compileAll, hc, hr, Except.isOk, Except.toBool]

/-- Claim C6: for well-formed equations (each compiling on its own),
`Program::new(equations, group_order)` succeeds if and only if
`len(equations) ≤ group_order`; equivalently it raises exactly when
`len(equations) > group_order`. -/
theorem claim_C6_capacity (eqs : List String) (n : Nat)
    (h : ∀ e ∈ eqs, (eq_to_assembly e).isOk = true) :
    (Program.new eqs n).isOk = true ↔ eqs.length ≤ n := by
  unfold Program.new
  by_cases hc : eqs.length > n
  · rw [if_pos hc]
    simp [Except.isOk, Except.toBool]
    omega
  · rw [if_neg hc]
    have hok := compileAll_isOk eqs h
    cases hr : compileAll eqs with
    | error msg => rw [hr] at hok; simp [Except.isOk, Except.toBool] at hok
    | ok l =>
      simp [Except.isOk, Except.toBool]
      omega

/-- Witness for claim C6: the capacity criterion applied to the
one-equation list `["a === 9"]` with group order `1`. -/
theorem claim_C6_witness :
    (∀ e ∈ ["a === 9"], (eq_to_assembly e).isOk = true) ∧
    ((Program.new ["a === 9"] 1).isOk = true ↔ ["a === 9"].length ≤ 1) :=
  ⟨by decide, claim_C6_capacity ["a === 9"] 1 (by decide)⟩

/-! Tokenization lemmas for claim C10. -/

theorem pySplit_no_sep (sep : Char) (l : List Char) (h : ∀ c ∈ l, c ≠ sep) :
    pySplit sep l = [l] := by
  induction l with
  | nil => rfl
  | cons c rest ih =>
    simp only [pySplit, if_neg (h c (by simp)), ih (fun c' hc' => h c' (by simp [hc']))]

theorem pySplit_append (sep : Char) (l rest : List Char) (h : ∀ c ∈ l, c ≠ sep) :
    pySplit sep (l ++ sep :: rest) = l :: pySplit sep rest := by
  induction l with
  | nil => simp [pySplit]
  | cons c l ih =>
    rw [List.cons_append]
    simp only [pySplit, if_neg (h c (by simp)), ih (fun c' hc' => h c' (by simp [hc']))]

theorem rstripNl_concat (l : List Char) (c : Char) (h : (c == '\n') = false) :
    rstripNl (l ++ [c]) = l ++ [c] := by
  unfold rstripNl
  rw [List.reverse_append]
  simp only [List.reverse_cons, List.reverse_nil, List.nil_append, List.cons_append,
    List.dropWhile_cons, h]
  simp only [Bool.false_eq_true, if_false, List.reverse_cons, List.reverse_reverse]

theorem pyTokens_public (t : String) (h : ∀ c ∈ t.data, c ≠ ' ') :
    pyTokens (t ++ " public") = [t, "public"] := by
  unfold pyTokens
  have hdata : (t ++ " public").data = t.data ++ ' ' :: "public".data := by
    rw [String.data_append]
  rw [hdata]
  have hsplit : t.data ++ ' ' :: "public".data = (t.data ++ ' ' :: "publi".data) ++ ['c'] := by
    simp
  have hr : rstripNl (t.data ++ ' ' :: "public".data) = t.data ++ ' ' :: "public".data := by
    rw [hsplit, rstripNl_concat _ _ (by decide), ← hsplit]
  rw [hr, pySplit_append _ _ _ h, pySplit_no_sep _ _ (by decide)]
  rfl

/-- Claim C10: for every space-free token `t`, compiling `"t public"`
never raises and returns the public-input equation
`AssemblyEqn(GateWires(t, None, None), {t: -1, $output_coeff: 0,
$public: True})` — the variable-name validity check is never applied on
this path, so even invalid names (digit-leading, empty, or otherwise
non-conforming tokens) are accepted, unlike the output variable of
`<==`/`===` equations. -/
theorem claim_C10_public_path (t : String) (h : ∀ c ∈ t.data, c ≠ ' ') :
    eq_to_assembly (t ++ " public") =
      .ok ⟨⟨some t, none, none⟩,
        dictInsert (dictInsert (dictInsert [] t (-1)) "$output_coeff" 0) "$public" 1⟩ := by
  unfold eq_to_assembly
  rw [pyTokens_public t h]
  rfl

/-- Witness for claim C10: the public path applied to the invalid
(digit-leading) variable name `"123"`. -/
theorem claim_C10_witness :
    (∀ c ∈ ("123" : String).data, c ≠ ' ') ∧
    eq_to_assembly ("123" ++ " public") =
      .ok ⟨⟨some "123", none, none⟩,
        dictInsert (dictInsert (dictInsert [] "123" (-1)) "$output_coeff" 0) "$public" 1⟩ :=
  ⟨by decide, claim_C10_public_path "123" (by decide)⟩

/-! Lemmas for claim C5. -/

theorem getD_set_ne {l : List Scalar} {i j : Nat} (hij : i ≠ j) (v : Scalar) (d : Scalar) :
    (l.set i v).getD j d = l.getD j d := by
  rw [List.getD_eq_getElem?_getD, List.getD_eq_getElem?_getD, List.getElem?_set_ne hij]

theorem gateLists_fold_length (l : List (Nat × AssemblyEqn)) (acc : GateLists) :
    let r := l.foldl (fun acc ic =>
      let gate := ic.2.gate
      (⟨acc.L.set ic.1 gate.L, acc.R.set ic.1 gate.R, acc.M.set ic.1 gate.M,
        acc.O.set ic.1 gate.O, acc.C.set ic.1 gate.C⟩ : GateLists)) acc
    r.L.length = acc.L.length ∧ r.R.length = acc.R.length ∧ r.M.length = acc.M.length ∧
      r.O.length = acc.O.length ∧ r.C.length = acc.C.length := by
  induction l generalizing acc with
  | nil => exact ⟨rfl, rfl, rfl, rfl, rfl⟩
  | cons x l ih =>
    simp only [List.foldl_cons]
    have := ih ⟨acc.L.set x.1 x.2.gate.L, acc.R.set x.1 x.2.gate.R, acc.M.set x.1 x.2.gate.M,
      acc.O.set x.1 x.2.gate.O, acc.C.set x.1 x.2.gate.C⟩
    simpa [List.length_set] using this

theorem gateLists_fold_getD (l : List (Nat × AssemblyEqn)) (acc : GateLists) (i : Nat)
    (hb : ∀ x ∈ l, x.1 ≠ i) :
    let r := l.foldl (fun acc ic =>
      let gate := ic.2.gate
      (⟨acc.L.set ic.1 gate.L, acc.R.set ic.1 gate.R, acc.M.set ic.1 gate.M,
        acc.O.set ic.1 gate.O, acc.C.set ic.1 gate.C⟩ : GateLists)) acc
    r.L.getD i 0 = acc.L.getD i 0 ∧ r.R.getD i 0 = acc.R.getD i 0 ∧
      r.M.getD i 0 = acc.M.getD i 0 ∧ r.O.getD i 0 = acc.O.getD i 0 ∧
      r.C.getD i 0 = acc.C.getD i 0 := by
  induction l generalizing acc with
  | nil => exact ⟨rfl, rfl, rfl, rfl, rfl⟩
  | cons x l ih =>
    have hx : x.1 ≠ i := hb x (by simp)
    obtain ⟨g1, g2, g3, g4, g5⟩ := ih ⟨acc.L.set x.1 x.2.gate.L, acc.R.set x.1 x.2.gate.R,
      acc.M.set x.1 x.2.gate.M, acc.O.set x.1 x.2.gate.O, acc.C.set x.1 x.2.gate.C⟩
      (fun y hy => hb y (by simp [hy]))
    exact ⟨g1.trans (getD_set_ne hx _ _), g2.trans (getD_set_ne hx _ _),
      g3.trans (getD_set_ne hx _ _), g4.trans (getD_set_ne hx _ _),
      g5.trans (getD_set_ne hx _ _)⟩

theorem getD_replicate_zero (n i : Nat) : (List.replicate n (0 : Scalar)).getD i 0 = 0 := by
  rw [List.getD_eq_getElem?_getD, List.getElem?_replicate]
  by_cases hi : i < n <;> simp [hi]

/-- Claim C5: for every `Program`, the five gate-selector value lists all
have length exactly `group_order` (unconditionally, programs with
`len(constraints) = group_order` included), and every row at or beyond
`len(constraints)` holds the zero field element in all five selectors
(the implicit no-op gate). -/
theorem claim_C5_gate_polynomials (p : Program) :
    (p.make_gate_polynomials.1.values.length = p.group_order ∧
     p.make_gate_polynomials.2.1.values.length = p.group_order ∧
     p.make_gate_polynomials.2.2.1.values.length = p.group_order ∧
     p.make_gate_polynomials.2.2.2.1.values.length = p.group_order ∧
     p.make_gate_polynomials.2.2.2.2.values.length = p.group_order) ∧
    ∀ i, p.constraints.length ≤ i → i < p.group_order →
     (p.make_gate_polynomials.1.values.getD i 0 = 0 ∧
      p.make_gate_polynomials.2.1.values.getD i 0 = 0 ∧
      p.make_gate_polynomials.2.2.1.values.getD i 0 = 0 ∧
      p.make_gate_polynomials.2.2.2.1.values.getD i 0 = 0 ∧
      p.make_gate_polynomials.2.2.2.2.values.getD i 0 = 0) := by
  constructor
  · have hlen := gateLists_fold_length p.constraints.enum
      ⟨List.replicate p.group_order 0, List.replicate p.group_order 0,
       List.replicate p.group_order 0, List.replicate p.group_order 0,
       List.replicate p.group_order 0⟩
    simp only [List.length_replicate] at hlen
    exact ⟨hlen.1, hlen.2.1, hlen.2.2.1, hlen.2.2.2.1, hlen.2.2.2.2⟩
  · intro i h1 _
    have hb : ∀ x ∈ p.constraints.enum, x.1 ≠ i := by
      intro x hx
      have : x.1 < p.constraints.length := by
        have := List.mem_enum_iff_getElem?.mp hx
        exact (List.getElem?_eq_some_iff.mp this).1
      omega
    have hget := gateLists_fold_getD p.constraints.enum
      ⟨List.replicate p.group_order 0, List.replicate p.group_order 0,
       List.replicate p.group_order 0, List.replicate p.group_order 0,
       List.replicate p.group_order 0⟩ i hb
    simp only [getD_replicate_zero] at hget
    exact ⟨hget.1, hget.2.1, hget.2.2.1, hget.2.2.2.1, hget.2.2.2.2⟩

/-- Witness for claim C5: the selector-shape property applied to the
empty one-row program, with the padding-row hypotheses discharged at
row `0`. -/
theorem claim_C5_witness :
    ((Program.mk [] 1).constraints.length ≤ 0 ∧ 0 < (Program.mk [] 1).group_order) ∧
    (((Program.mk [] 1).make_gate_polynomials.1.values.length = 1 ∧
      (Program.mk [] 1).make_gate_polynomials.2.1.values.length = 1 ∧
      (Program.mk [] 1).make_gate_polynomials.2.2.1.values.length = 1 ∧
      (Program.mk [] 1).make_gate_polynomials.2.2.2.1.values.length = 1 ∧
      (Program.mk [] 1).make_gate_polynomials.2.2.2.2.values.length = 1) ∧
     ((Program.mk [] 1).make_gate_polynomials.1.values.getD 0 0 = 0 ∧
      (Program.mk [] 1).make_gate_polynomials.2.1.values.getD 0 0 = 0 ∧
      (Program.mk [] 1).make_gate_polynomials.2.2.1.values.getD 0 0 = 0 ∧
      (Program.mk [] 1).make_gate_polynomials.2.2.2.1.values.getD 0 0 = 0 ∧
      (Program.mk [] 1).make_gate_polynomials.2.2.2.2.values.getD 0 0 = 0)) :=
  ⟨⟨by decide, by decide⟩,
    ⟨(claim_C5_gate_polynomials (Program.mk [] 1)).1,
     (claim_C5_gate_polynomials (Program.mk [] 1)).2 0 (by decide) (by decide)⟩⟩

/-! ### Permutation builder: the cell-collection phase (claims C1, C9) -/

/-- All cells recorded in a `variable_uses` dictionary, in entry order. -/
def joinSets (d : Uses) : List Cell := (d.map Prod.snd).flatten

/-- Folding a list of `(occupant, cell)` visits into a `variable_uses`
dictionary; the two nested loops of `make_s_polynomials` are of this
shape. -/
def buildFrom (d : Uses) (visits : List (Option String × Cell)) : Uses :=
  visits.foldl (fun d vc => usesAdd d vc.1 vc.2) d

/-- The visit sequence of `make_s_polynomials`: every (occupant, cell)
pair touched by the constraint loop, then by the unused-rows loop, in
program order. -/
def visitsOf (p : Program) : List (Option String × Cell) :=
  (p.constraints.enum.map (fun rc =>
    (Column.variants.zip rc.2.wires.as_list).map
      (fun cv => (cv.2, (⟨cv.1, rc.1⟩ : Cell))))).flatten ++
  ((List.range' p.constraints.length (p.group_order - p.constraints.length)).map (fun row =>
    Column.variants.map (fun col => ((none : Option String), (⟨col, row⟩ : Cell))))).flatten

/-- The full 3-column grid, row-major: exactly the cells the collection
phase visits when `len(constraints) ≤ group_order`. -/
def gridCells (n : Nat) : List Cell :=
  ((List.range n).map (fun r => Column.variants.map (fun col => (⟨col, r⟩ : Cell)))).flatten

theorem buildFrom_append (d : Uses) (a b : List (Option String × Cell)) :
    buildFrom d (a ++ b) = buildFrom (buildFrom d a) b :=
  List.foldl_append _ _ _ _

theorem variable_uses_eq_buildFrom (p : Program) :
    p.variable_uses = buildFrom [(none, [])] (visitsOf p) := by
  unfold Program.variable_uses visitsOf buildFrom
  rw [List.foldl_append]
  simp only [List.foldl_flatten, List.foldl_map]

theorem setAdd_of_not_mem {s : List Cell} {c : Cell} (h : c ∉ s) : setAdd s c = s ++ [c] := by
  simp [setAdd, h]

theorem joinSets_cons (k : Option String) (s : List Cell) (d : Uses) :
    joinSets ((k, s) :: d) = s ++ joinSets d := rfl

theorem joinSets_usesAdd_perm (d : Uses) (k : Option String) (c : Cell) (h : c ∉ joinSets d) :
    (joinSets (usesAdd d k c)).Perm (joinSets d ++ [c]) := by
  induction d with
  | nil => simp [usesAdd, joinSets, setAdd]
  | cons p d ih =>
    rcases p with ⟨k', s⟩
    rw [joinSets_cons, List.mem_append] at h
    push_neg at h
    by_cases hk : k' = k
    · simp only [usesAdd, if_pos hk, joinSets_cons, setAdd_of_not_mem h.1]
      rw [List.append_assoc, List.append_assoc]
      exact List.Perm.append_left s (List.perm_append_comm)
    · simp only [usesAdd, if_neg hk, joinSets_cons]
      rw [List.append_assoc]
      exact List.Perm.append_left s (ih h.2)

theorem joinSets_buildFrom_perm :
    ∀ (visits : List (Option String × Cell)) (d : Uses),
    (joinSets d ++ visits.map Prod.snd).Nodup →
    (joinSets (buildFrom d visits)).Perm (joinSets d ++ visits.map Prod.snd) := by
  intro visits
  induction visits with
  | nil => intro d _; simp [buildFrom]
  | cons v visits ih =>
    intro d h
    have hc : v.2 ∉ joinSets d := by
      rw [List.nodup_append] at h
      intro hmem
      exact (h.2.2 hmem) (by simp)
    have hstep := joinSets_usesAdd_perm d v.1 v.2 hc
    have hshape : joinSets d ++ (v :: visits).map Prod.snd =
        (joinSets d ++ [v.2]) ++ visits.map Prod.snd := by
      simp
    have hnodup' : (joinSets (usesAdd d v.1 v.2) ++ visits.map Prod.snd).Nodup := by
      have hperm := hstep.append_right (visits.map Prod.snd)
      rw [hperm.nodup_iff, ← hshape]
      exact h
    have hrec := ih (usesAdd d v.1 v.2) hnodup'
    rw [hshape]
    exact hrec.trans (hstep.append_right _)

theorem zip_as_list_cells (row : Nat) (w : GateWires) :
    (Column.variants.zip w.as_list).map (fun cv => (⟨cv.1, row⟩ : Cell)) =
      Column.variants.map (fun col => (⟨col, row⟩ : Cell)) := by
  rcases w with ⟨L, R, O⟩
  rfl

theorem range_split (len n : Nat) (h : len ≤ n) :
    List.range len ++ List.range' len (n - len) = List.range n := by
  rw [List.range_eq_range' len, List.range_eq_range' n]
  have hr := List.range'_append 0 len (n - len) 1
  simp only [Nat.zero_add, Nat.one_mul] at hr
  rw [hr]
  congr 1
  omega

theorem visitsOf_cells (p : Program) (hlen : p.constraints.length ≤ p.group_order) :
    (visitsOf p).map Prod.snd = gridCells p.group_order := by
  unfold visitsOf gridCells
  rw [List.map_append, List.map_flatten, List.map_flatten]
  simp only [List.map_map]
  have h1 : (List.map Prod.snd ∘ fun rc : Nat × AssemblyEqn =>
      (Column.variants.zip rc.2.wires.as_list).map
        (fun cv => ((cv.2 : Option String), (⟨cv.1, rc.1⟩ : Cell)))) =
      (fun rc : Nat × AssemblyEqn => Column.variants.map (fun col => (⟨col, rc.1⟩ : Cell))) := by
    funext rc
    simp only [Function.comp_apply, List.map_map]
    exact zip_as_list_cells rc.1 rc.2.wires
  have h2 : (List.map Prod.snd ∘ fun row =>
      Column.variants.map (fun col => ((none : Option String), (⟨col, row⟩ : Cell)))) =
      (fun row => Column.variants.map (fun col => (⟨col, row⟩ : Cell))) := by
    funext row
    simp [List.map_map, Function.comp_def]
  rw [h1, h2]
  have h3 : p.constraints.enum.map
      (fun rc => Column.variants.map (fun col => (⟨col, rc.1⟩ : Cell))) =
      (List.range p.constraints.length).map
        (fun r => Column.variants.map (fun col => (⟨col, r⟩ : Cell))) := by
    rw [← List.enum_map_fst p.constraints, List.map_map]
    rfl
  rw [h3, ← List.flatten_append, ← List.map_append, range_split _ _ hlen]

theorem gridCells_nodup (n : Nat) : (gridCells n).Nodup := by
  rw [gridCells, List.nodup_flatten]
  constructor
  · intro l hl
    simp only [List.mem_map] at hl
    obtain ⟨r, _, rfl⟩ := hl
    simp [Column.variants]
  · rw [List.pairwise_map]
    refine List.Pairwise.imp ?_ (List.nodup_range n)
    intro a b hab x hxa hxb
    simp only [List.mem_map] at hxa hxb
    obtain ⟨ca, _, rfl⟩ := hxa
    obtain ⟨cb, _, hcb⟩ := hxb
    exact hab (congrArg Cell.row hcb).symm

theorem gridCells_row_lt {n : Nat} {c : Cell} (h : c ∈ gridCells n) : c.row < n := by
  rw [gridCells, List.mem_flatten] at h
  obtain ⟨l, hl, hc⟩ := h
  simp only [List.mem_map] at hl
  obtain ⟨r, hr, rfl⟩ := hl
  simp only [List.mem_map] at hc
  obtain ⟨col, _, rfl⟩ := hc
  exact List.mem_range.mp hr

/-! ### Permutation builder: the write phase (claims C1, C9) -/

theorem writeS_length (S : SValues) (col : Column) (row : Nat) (v : Scalar) (c : Column) :
    ((writeS S col row v) c).length = (S c).length := by
  unfold writeS
  by_cases h : c = col
  · simp [h]
  · simp [h]

theorem lookupS_writeS_self (S : SValues) (col : Column) (row : Nat) (v : Scalar)
    (h : row < (S col).length) :
    lookupS (writeS S col row v) ⟨col, row⟩ = v := by
  show (if col = col then (S col).set row v else S col).getD row 0 = v
  rw [if_pos rfl, List.getD_eq_getElem?_getD, List.getElem?_set_self h]
  rfl

theorem lookupS_writeS_ne (S : SValues) (col : Column) (row : Nat) (v : Scalar) (c : Cell)
    (h : c ≠ ⟨col, row⟩) :
    lookupS (writeS S col row v) c = lookupS S c := by
  obtain ⟨cc, cr⟩ := c
  show (if cc = col then (S col).set row v else S cc).getD cr 0 = (S cc).getD cr 0
  by_cases hcol : cc = col
  · rw [if_pos hcol]
    have hrow : row ≠ cr := by
      intro hr
      exact h (by rw [hcol, ← hr])
    rw [List.getD_eq_getElem?_getD, List.getD_eq_getElem?_getD, List.getElem?_set_ne hrow, hcol]
  · rw [if_neg hcol]

theorem getD_mem_of_lt {g : List Cell} {j : Nat} (h : j < g.length) :
    g.getD j ⟨Column.LEFT, 0⟩ ∈ g := by
  rw [List.getD_eq_getElem _ _ h]
  exact List.getElem_mem h

theorem foldWrites_untouched (n : Nat) (g : List Cell) (hg : g ≠ [])
    (l : List Nat) (S : SValues) (c : Cell) (hc : c ∉ g) :
    lookupS (l.foldl (pgBody n g) S) c = lookupS S c := by
  induction l generalizing S with
  | nil => rfl
  | cons i l ih =>
    rw [List.foldl_cons, ih (pgBody n g S i)]
    have hlen : 0 < g.length := List.length_pos.mpr hg
    have hmem : g.getD ((i + 1) % g.length) ⟨Column.LEFT, 0⟩ ∈ g :=
      getD_mem_of_lt (Nat.mod_lt _ hlen)
    have hne : c ≠ g.getD ((i + 1) % g.length) ⟨Column.LEFT, 0⟩ := fun he => hc (he ▸ hmem)
    exact lookupS_writeS_ne _ _ _ _ _ hne

theorem succ_mod_ne {i m k : Nat} (him : i < m) (hmk : m < k) :
    (i + 1) % k ≠ (m + 1) % k := by
  by_cases hm : m + 1 < k
  · rw [Nat.mod_eq_of_lt hm, Nat.mod_eq_of_lt (by omega)]
    omega
  · have hk : m + 1 = k := by omega
    rw [hk, Nat.mod_self, Nat.mod_eq_of_lt (by omega)]
    omega

theorem processGroup_prefix (n : Nat) (g : List Cell) (hnd : g.Nodup)
    (hrow : ∀ c ∈ g, c.row < n) :
    ∀ (m : Nat), m ≤ g.length → ∀ (S : SValues), (∀ col, (S col).length = n) →
    (∀ col, (((List.range m).foldl (pgBody n g) S) col).length = n) ∧
    ∀ i < m, lookupS ((List.range m).foldl (pgBody n g) S)
        (g.getD ((i + 1) % g.length) ⟨Column.LEFT, 0⟩) =
      (g.getD i ⟨Column.LEFT, 0⟩).label n := by
  intro m
  induction m with
  | zero => intro _ S hS; exact ⟨hS, by omega⟩
  | succ m ihm =>
    intro hm S hS
    have hmlen : m < g.length := by omega
    obtain ⟨ihlen, ihget⟩ := ihm (by omega) S hS
    rw [List.range_succ, List.foldl_append, List.foldl_cons, List.foldl_nil]
    have hnext : g.getD ((m + 1) % g.length) ⟨Column.LEFT, 0⟩ ∈ g :=
      getD_mem_of_lt (Nat.mod_lt _ (by omega))
    constructor
    · intro col
      rw [show pgBody n g ((List.range m).foldl (pgBody n g) S) m =
        writeS ((List.range m).foldl (pgBody n g) S)
          (g.getD ((m + 1) % g.length) ⟨Column.LEFT, 0⟩).column
          (g.getD ((m + 1) % g.length) ⟨Column.LEFT, 0⟩).row
          ((g.getD m ⟨Column.LEFT, 0⟩).label n) from rfl]
      rw [writeS_length]
      exact ihlen col
    · intro i hi
      by_cases him : i = m
      · subst him
        have hr : (g.getD ((i + 1) % g.length) ⟨Column.LEFT, 0⟩).row <
            (((List.range i).foldl (pgBody n g) S)
              (g.getD ((i + 1) % g.length) ⟨Column.LEFT, 0⟩).column).length := by
          rw [ihlen]
          exact hrow _ hnext
        exact lookupS_writeS_self _ _ _ _ hr
      · have hi' : i < m := by omega
        have hidx : (i + 1) % g.length ≠ (m + 1) % g.length := succ_mod_ne hi' hmlen
        have hcells : g.getD ((i + 1) % g.length) ⟨Column.LEFT, 0⟩ ≠
            g.getD ((m + 1) % g.length) ⟨Column.LEFT, 0⟩ := by
          intro he
          rw [List.getD_eq_getElem _ _ (Nat.mod_lt _ (by omega)),
            List.getD_eq_getElem _ _ (Nat.mod_lt _ (by omega))] at he
          exact hidx (hnd.getElem_inj_iff.mp he)
        rw [show pgBody n g ((List.range m).foldl (pgBody n g) S) m =
          writeS ((List.range m).foldl (pgBody n g) S)
            (g.getD ((m + 1) % g.length) ⟨Column.LEFT, 0⟩).column
            (g.getD ((m + 1) % g.length) ⟨Column.LEFT, 0⟩).row
            ((g.getD m ⟨Column.LEFT, 0⟩).label n) from rfl]
        have hpres := lookupS_writeS_ne ((List.range m).foldl (pgBody n g) S)
          (g.getD ((m + 1) % g.length) ⟨Column.LEFT, 0⟩).column
          (g.getD ((m + 1) % g.length) ⟨Column.LEFT, 0⟩).row
          ((g.getD m ⟨Column.LEFT, 0⟩).label n)
          (g.getD ((i + 1) % g.length) ⟨Column.LEFT, 0⟩) hcells
        rw [hpres]
        exact ihget i hi'

theorem processGroup_spec (n : Nat) (g : List Cell) (S : SValues) (hnd : g.Nodup)
    (hrow : ∀ c ∈ g, c.row < n) (hS : ∀ col, (S col).length = n) :
    (∀ col, ((processGroup n S g) col).length = n) ∧
    ∀ i < g.length, lookupS (processGroup n S g)
        (g.getD ((i + 1) % g.length) ⟨Column.LEFT, 0⟩) =
      (g.getD i ⟨Column.LEFT, 0⟩).label n :=
  processGroup_prefix n g hnd hrow g.length (le_refl _) S hS

theorem foldGroups_untouched (n : Nat) :
    ∀ (gs : List (List Cell)) (S : SValues) (c : Cell), (∀ g ∈ gs, c ∉ g) →
    lookupS (gs.foldl (processGroup n) S) c = lookupS S c := by
  intro gs
  induction gs with
  | nil => intro S c _; rfl
  | cons g gs ih =>
    intro S c hc
    rw [List.foldl_cons, ih _ _ (fun g' hg' => hc g' (by simp [hg']))]
    by_cases hg : g = []
    · rw [hg]
      rfl
    · exact foldWrites_untouched n g hg _ S c (hc g (by simp))

theorem foldGroups_spec (n : Nat) :
    ∀ (gs : List (List Cell)) (S : SValues),
    gs.flatten.Nodup → (∀ g ∈ gs, ∀ c ∈ g, c.row < n) → (∀ col, (S col).length = n) →
    (∀ col, ((gs.foldl (processGroup n) S) col).length = n) ∧
    ∀ g ∈ gs, ∀ i < g.length,
      lookupS (gs.foldl (processGroup n) S) (g.getD ((i + 1) % g.length) ⟨Column.LEFT, 0⟩) =
        (g.getD i ⟨Column.LEFT, 0⟩).label n := by
  intro gs
  induction gs with
  | nil => intro S _ _ hS; exact ⟨hS, by simp⟩
  | cons g0 gs ih =>
    intro S hnd hrow hS
    rw [List.flatten_cons, List.nodup_append] at hnd
    obtain ⟨hnd0, hndr, hdisj⟩ := hnd
    have hpg := processGroup_spec n g0 S hnd0 (hrow g0 (by simp)) hS
    have ihh := ih (processGroup n S g0) hndr
      (fun g hg c hc => hrow g (by simp [hg]) c hc) hpg.1
    constructor
    · intro col
      rw [List.foldl_cons]
      exact ihh.1 col
    · intro g hg i hi
      rw [List.foldl_cons]
      rcases List.mem_cons.mp hg with rfl | hg'
      · have hcmem : g.getD ((i + 1) % g.length) ⟨Column.LEFT, 0⟩ ∈ g :=
          getD_mem_of_lt (Nat.mod_lt _ (by omega))
        rw [foldGroups_untouched n gs _ _ ?notin]
        · exact hpg.2 i hi
        case notin =>
          intro g' hg' hmem
          exact (hdisj hcmem) (List.mem_flatten.mpr ⟨g', hg', hmem⟩)
      · exact ihh.2 g hg' i hi

/-! ### Permutation builder: groups cover the grid (claims C1, C9) -/

theorem orderedInsert_perm {α : Type} (le : α → α → Bool) (a : α) (l : List α) :
    (orderedInsert le a l).Perm (a :: l) := by
  induction l with
  | nil => exact List.Perm.refl _
  | cons b l ih =>
    rw [orderedInsert]
    by_cases h : le a b
    · rw [if_pos h]
    · rw [if_neg h]
      exact (ih.cons b).trans (List.Perm.swap a b l)

theorem pySorted_perm {α : Type} (le : α → α → Bool) (l : List α) :
    (pySorted le l).Perm l := by
  induction l with
  | nil => exact List.Perm.refl _
  | cons a l ih => exact (orderedInsert_perm le a (pySorted le l)).trans (ih.cons a)

theorem s_groups_flatten_perm (p : Program) :
    (p.s_groups.flatten).Perm (joinSets p.variable_uses) := by
  unfold Program.s_groups joinSets
  induction p.variable_uses with
  | nil => exact List.Perm.refl _
  | cons kv d ih =>
    simp only [List.map_cons, List.flatten_cons]
    exact (pySorted_perm cellLe kv.2).append ih

theorem variable_uses_cells_perm (p : Program) (hlen : p.constraints.length ≤ p.group_order) :
    (joinSets p.variable_uses).Perm (gridCells p.group_order) := by
  rw [variable_uses_eq_buildFrom]
  have hnodup : (joinSets [((none : Option String), ([] : List Cell))] ++
      (visitsOf p).map Prod.snd).Nodup := by
    rw [visitsOf_cells p hlen]
    simpa [joinSets] using gridCells_nodup p.group_order
  have hperm := joinSets_buildFrom_perm (visitsOf p) [(none, [])] hnodup
  rw [visitsOf_cells p hlen] at hperm
  simpa [joinSets] using hperm

theorem s_groups_perm_grid (p : Program) (hlen : p.constraints.length ≤ p.group_order) :
    (p.s_groups.flatten).Perm (gridCells p.group_order) :=
  (s_groups_flatten_perm p).trans (variable_uses_cells_perm p hlen)

theorem s_groups_nodup_flatten (p : Program) (hlen : p.constraints.length ≤ p.group_order) :
    p.s_groups.flatten.Nodup :=
  (s_groups_perm_grid p hlen).nodup_iff.mpr (gridCells_nodup p.group_order)

theorem s_groups_row_lt (p : Program) (hlen : p.constraints.length ≤ p.group_order) :
    ∀ g ∈ p.s_groups, ∀ c ∈ g, c.row < p.group_order := by
  intro g hg c hc
  have hmem : c ∈ p.s_groups.flatten := List.mem_flatten.mpr ⟨g, hg, hc⟩
  exact gridCells_row_lt ((s_groups_perm_grid p hlen).mem_iff.mp hmem)

theorem make_s_values_eq_fold (p : Program) :
    p.make_s_values = p.s_groups.foldl (processGroup p.group_order)
      (fun _ => List.replicate p.group_order (0 : Scalar)) := by
  unfold Program.make_s_values Program.s_groups
  rw [List.foldl_map]

theorem make_s_values_spec (p : Program) (hlen : p.constraints.length ≤ p.group_order) :
    (∀ col, (p.make_s_values col).length = p.group_order) ∧
    ∀ g ∈ p.s_groups, ∀ i < g.length,
      lookupS p.make_s_values (g.getD ((i + 1) % g.length) ⟨Column.LEFT, 0⟩) =
        (g.getD i ⟨Column.LEFT, 0⟩).label p.group_order := by
  rw [make_s_values_eq_fold]
  exact foldGroups_spec p.group_order p.s_groups _
    (s_groups_nodup_flatten p hlen) (s_groups_row_lt p hlen)
    (fun col => List.length_replicate _ _)

/-- Claim C1: for every `Program` (with `len(constraints) ≤ group_order`)
and every occupant group of the 3-column grid (one group per distinct
variable, plus the unused group, which also holds every cell of the rows
at or beyond `len(constraints)`): sorting the group's cells by
`(row, column)` with `LEFT < RIGHT < OUTPUT` and treating the sorted list
as a cycle, the S-polynomial of the successor cell's column holds, at the
successor cell's row, the label
`rootsOfUnity(group_order)[row] * columnIndex` of the current cell —
equivalently, following the stored labels from any cell of a group of
size `k` walks through all `k` cells and closes after exactly `k`
steps. -/
theorem claim_C1_permutation_cycles (p : Program) (hlen : p.constraints.length ≤ p.group_order)
    (g : List Cell) (hg : g ∈ p.s_groups) (i : Nat) (hi : i < g.length) :
    ((p.make_s_polynomials
        ((g.getD ((i + 1) % g.length) ⟨Column.LEFT, 0⟩).column)).values).getD
      ((g.getD ((i + 1) % g.length) ⟨Column.LEFT, 0⟩).row) 0 =
      (g.getD i ⟨Column.LEFT, 0⟩).label p.group_order :=
  (make_s_values_spec p hlen).2 g hg i hi

/-- Witness for claim C1: the one-constraint program `c <== a * b` with
group order `1`; the left-wire group is the singleton cell `(LEFT, 0)`,
whose successor is itself. -/
theorem claim_C1_witness :
    ((Program.mk [⟨⟨some "a", some "b", some "c"⟩, [("a*b", 1)]⟩] 1).constraints.length ≤
        (Program.mk [⟨⟨some "a", some "b", some "c"⟩, [("a*b", 1)]⟩] 1).group_order ∧
      [(⟨Column.LEFT, 0⟩ : Cell)] ∈
        (Program.mk [⟨⟨some "a", some "b", some "c"⟩, [("a*b", 1)]⟩] 1).s_groups ∧
      0 < [(⟨Column.LEFT, 0⟩ : Cell)].length) ∧
    (((Program.mk [⟨⟨some "a", some "b", some "c"⟩, [("a*b", 1)]⟩] 1).make_s_polynomials
        (([(⟨Column.LEFT, 0⟩ : Cell)].getD ((0 + 1) % [(⟨Column.LEFT, 0⟩ : Cell)].length)
          ⟨Column.LEFT, 0⟩).column)).values.getD
      (([(⟨Column.LEFT, 0⟩ : Cell)].getD ((0 + 1) % [(⟨Column.LEFT, 0⟩ : Cell)].length)
          ⟨Column.LEFT, 0⟩).row) 0 =
      ([(⟨Column.LEFT, 0⟩ : Cell)].getD 0 ⟨Column.LEFT, 0⟩).label
        (Program.mk [⟨⟨some "a", some "b", some "c"⟩, [("a*b", 1)]⟩] 1).group_order) :=
  ⟨⟨by decide, by decide, by decide⟩,
    claim_C1_permutation_cycles (Program.mk [⟨⟨some "a", some "b", some "c"⟩, [("a*b", 1)]⟩] 1)
      (by decide) [(⟨Column.LEFT, 0⟩ : Cell)] (by decide) 0 (by decide)⟩

/-! ### Claim C9: the permutation tables are a rearrangement of all labels -/

theorem list_eq_map_getD (l : List Scalar) :
    l = (List.range l.length).map (fun r => l.getD r 0) := by
  apply List.ext_getElem
  · simp
  · intro j h1 h2
    simp only [List.getElem_map, List.getElem_range]
    rw [List.getD_eq_getElem _ _ h1]

theorem svalues_eq_map_lookup (S : SValues) (n : Nat) (col : Column) (h : (S col).length = n) :
    S col = (List.range n).map (fun r => lookupS S ⟨col, r⟩) := by
  conv_lhs => rw [list_eq_map_getD (S col)]
  rw [h]
  rfl

theorem flatten_cons_maps {β γ : Type} (x : β → γ) (ys : β → List γ) (bs : List β) :
    ((bs.map (fun b => x b :: ys b)).flatten).Perm (bs.map x ++ (bs.map ys).flatten) := by
  induction bs with
  | nil => exact List.Perm.refl _
  | cons b bs ih =>
    simp only [List.map_cons, List.flatten_cons]
    rw [List.cons_append, List.cons_append]
    refine List.Perm.cons (x b) ?_
    exact (ih.append_left (ys b)).trans (List.perm_append_comm_assoc _ _ _)

theorem map_flatten_transpose {α β γ : Type} (f : α → β → γ) (as : List α) (bs : List β) :
    ((as.map (fun a => bs.map (f a))).flatten).Perm
      ((bs.map (fun b => as.map (fun a => f a b))).flatten) := by
  induction as with
  | nil =>
    simp only [List.map_nil, List.flatten_nil]
    have hnil : (bs.map (fun _ => ([] : List γ))).flatten = [] := by
      induction bs with
      | nil => rfl
      | cons b bs ih2 => simpa using ih2
    rw [hnil]
  | cons a as ih =>
    simp only [List.map_cons, List.flatten_cons]
    exact (ih.append_left (bs.map (f a))).trans
      (flatten_cons_maps (fun b => f a b) (fun b => as.map (fun a' => f a' b)) bs).symm

theorem map_lookup_group (p : Program) (hlen : p.constraints.length ≤ p.group_order)
    (g : List Cell) (hg : g ∈ p.s_groups) :
    g.map (lookupS p.make_s_values) =
      (g.rotate (g.length - 1)).map (fun c => c.label p.group_order) := by
  apply List.ext_getElem
  · simp
  · intro j h1 h2
    have hj : j < g.length := by simpa using h1
    have hk : 0 < g.length := by omega
    simp only [List.getElem_map, List.getElem_rotate]
    have hmod : (j + (g.length - 1)) % g.length < g.length := Nat.mod_lt _ hk
    have hmain := (make_s_values_spec p hlen).2 g hg ((j + (g.length - 1)) % g.length) hmod
    have hidx : ((j + (g.length - 1)) % g.length + 1) % g.length = j := by
      rw [Nat.mod_add_mod]
      have hjk : j + (g.length - 1) + 1 = j + g.length := by omega
      rw [hjk, Nat.add_mod_right]
      exact Nat.mod_eq_of_lt hj
    rw [hidx, List.getD_eq_getElem _ _ hj, List.getD_eq_getElem _ _ hmod] at hmain
    exact hmain

theorem map_lookup_perm_label (p : Program) (hlen : p.constraints.length ≤ p.group_order)
    (g : List Cell) (hg : g ∈ p.s_groups) :
    (g.map (lookupS p.make_s_values)).Perm (g.map (fun c => c.label p.group_order)) := by
  rw [map_lookup_group p hlen g hg]
  exact (List.rotate_perm g (g.length - 1)).map _

theorem flatten_map_lookup_perm (p : Program) (hlen : p.constraints.length ≤ p.group_order) :
    ((p.s_groups.map (fun g => g.map (lookupS p.make_s_values))).flatten).Perm
      ((p.s_groups.map (fun g => g.map (fun c => c.label p.group_order))).flatten) := by
  have hgen : ∀ (gs : List (List Cell)), (∀ g ∈ gs, g ∈ p.s_groups) →
      ((gs.map (fun g => g.map (lookupS p.make_s_values))).flatten).Perm
        ((gs.map (fun g => g.map (fun c => c.label p.group_order))).flatten) := by
    intro gs
    induction gs with
    | nil => intro _; exact List.Perm.refl _
    | cons g gs ih =>
      intro hsub
      simp only [List.map_cons, List.flatten_cons]
      exact (map_lookup_perm_label p hlen g (hsub g (by simp))).append
        (ih (fun g' h' => hsub g' (by simp [h'])))
  exact hgen p.s_groups (fun g h => h)

/-- Claim C9: for every `Program` (with `len(constraints) ≤ group_order`),
each of the `3 × group_order` grid positions receives exactly one
permutation value — the three value lists have length `group_order` each,
and their concatenation is a permutation (equal multiset) of the full
grid's labels `{rootsOfUnity(group_order)[row] * columnIndex}`: no
position is left at its `Scalar(0)` initialization and none is written
twice with a surviving duplicate. -/
theorem claim_C9_s_values_rearrange_labels (p : Program)
    (hlen : p.constraints.length ≤ p.group_order) :
    (∀ col, ((p.make_s_polynomials col).values).length = p.group_order) ∧
    ((p.make_s_polynomials Column.LEFT).values ++ (p.make_s_polynomials Column.RIGHT).values ++
      (p.make_s_polynomials Column.OUTPUT).values).Perm
      ((gridCells p.group_order).map (fun c => c.label p.group_order)) := by
  have hspec := make_s_values_spec p hlen
  refine ⟨fun col => hspec.1 col, ?_⟩
  have hcol : ∀ col, (p.make_s_polynomials col).values =
      (List.range p.group_order).map (fun r => lookupS p.make_s_values ⟨col, r⟩) :=
    fun col => svalues_eq_map_lookup p.make_s_values p.group_order col (hspec.1 col)
  rw [hcol, hcol, hcol]
  have hcm : (List.range p.group_order).map (fun r => lookupS p.make_s_values ⟨Column.LEFT, r⟩) ++
      (List.range p.group_order).map (fun r => lookupS p.make_s_values ⟨Column.RIGHT, r⟩) ++
      (List.range p.group_order).map (fun r => lookupS p.make_s_values ⟨Column.OUTPUT, r⟩) =
      ((Column.variants.map (fun col => (List.range p.group_order).map
        (fun r => (⟨col, r⟩ : Cell)))).flatten).map (lookupS p.make_s_values) := by
    simp [Column.variants, List.map_map, Function.comp_def, List.append_assoc]
  rw [hcm]
  have h2 : ((Column.variants.map (fun col => (List.range p.group_order).map
      (fun r => (⟨col, r⟩ : Cell)))).flatten).Perm (gridCells p.group_order) :=
    map_flatten_transpose (fun col r => (⟨col, r⟩ : Cell)) Column.variants
      (List.range p.group_order)
  have hgrid := s_groups_perm_grid p hlen
  have h3 := (h2.trans hgrid.symm).map (lookupS p.make_s_values)
  have h4 : (p.s_groups.flatten).map (lookupS p.make_s_values) =
      (p.s_groups.map (fun g => g.map (lookupS p.make_s_values))).flatten :=
    List.map_flatten _ _
  have h5 := flatten_map_lookup_perm p hlen
  have h6 : (p.s_groups.map (fun g => g.map (fun c => c.label p.group_order))).flatten =
      (p.s_groups.flatten).map (fun c => c.label p.group_order) :=
    (List.map_flatten _ _).symm
  have h7 := hgrid.map (fun c => c.label p.group_order)
  refine h3.trans ?_
  rw [h4]
  refine h5.trans ?_
  rw [h6]
  exact h7

/-- Witness for claim C9: the shape-and-multiset property applied to the
one-constraint program `c <== a * b` with group order `1`. -/
theorem claim_C9_witness :
    ((Program.mk [⟨⟨some "a", some "b", some "c"⟩, [("a*b", 1)]⟩] 1).constraints.length ≤
      (Program.mk [⟨⟨some "a", some "b", some "c"⟩, [("a*b", 1)]⟩] 1).group_order) ∧
    ((∀ col, (((Program.mk [⟨⟨some "a", some "b", some "c"⟩, [("a*b", 1)]⟩] 1).make_s_polynomials
        col).values).length = 1) ∧
     (((Program.mk [⟨⟨some "a", some "b", some "c"⟩, [("a*b", 1)]⟩] 1).make_s_polynomials
        Column.LEFT).values ++
      ((Program.mk [⟨⟨some "a", some "b", some "c"⟩, [("a*b", 1)]⟩] 1).make_s_polynomials
        Column.RIGHT).values ++
      ((Program.mk [⟨⟨some "a", some "b", some "c"⟩, [("a*b", 1)]⟩] 1).make_s_polynomials
        Column.OUTPUT).values).Perm
      ((gridCells 1).map (fun c => c.label 1))) :=
  ⟨by decide,
    claim_C9_s_values_rearrange_labels
      (Program.mk [⟨⟨some "a", some "b", some "c"⟩, [("a*b", 1)]⟩] 1) (by decide)⟩
